import Mathlib

/-!
Verification of the Texel-tuning driver in tools/tuning/tune.py of the
mhonert/chess repository.  The Python source is shallowly embedded below:
Python ints become Int (or Nat for list sizes and indices), Python floats
become Real (the usual real-number idealization of float arithmetic),
fallible code returns Option or Except, and the line protocol with the
external engine process is abstracted by a deterministic score oracle.
-/

set_option maxHeartbeats 1000000
set_option maxRecDepth 10000

/-- TestPosition (tune.py 38-42): a FEN string, the game-result label
(1.0 / 0.5 / 0.0, a Python float, idealized as a real) and the transient
integer score written by the workers during a pass. -/
structure TestPosition where
  fen : String
  result : Real
  score : Int := 0

/-- TuningOption (tune.py 45-56): one tunable engine parameter together
with the bookkeeping counters of the search loop.  All fields are Python
ints (embedded as Int) except the strings and the flag. -/
structure TuningOption where
  name : String
  value : Int
  is_part : Bool := false
  orig_name : String := ""
  steps : Int := 16
  direction : Int := 1
  improvements : Int := 0
  iterations : Int := 0
  remaining_skips : Int := 0
  skip_count : Int := 0
deriving DecidableEq

/-- Fuel-driven worker for make_chunks: emits one chunk per unit of fuel.
Since every emitted chunk removes at least one position whenever
chunk_size is at least 1, fuel = positions.length always suffices. -/
def chunksAux : Nat → List TestPosition → Nat → List (List TestPosition)
  | 0, _, _ => []
  | _ + 1, [], _ => []
  | fuel + 1, p :: rest, chunk_size =>
      (p :: rest).take chunk_size :: chunksAux fuel ((p :: rest).drop chunk_size) chunk_size

/-- make_chunks (tune.py 150-153): split the list into consecutive slices
positions[i : min(i + chunk_size, len)] for i = 0, chunk_size, 2*chunk_size, ...
A chunk_size of 0 never occurs at any call site (the Python range would
raise ValueError); the guard only keeps the definition total. -/
def make_chunks (positions : List TestPosition) (chunk_size : Nat) : List (List TestPosition) :=
  if chunk_size = 0 then [] else chunksAux positions.length positions chunk_size

/-- make_batches (tune.py 143-146): batch_size = max(1, len(positions) // batch_count),
then chunk with that size.  Note the floor division: the number of chunks
produced can exceed batch_count. -/
def make_batches (positions : List TestPosition) (batch_count : Nat) : List (List TestPosition) :=
  make_chunks positions (max 1 (positions.length / batch_count))

/-- Fixture: an anonymous drawn test position. -/
def tp0 : TestPosition := { fen := "", result := 0, score := 0 }

/-- Fixture: a 250-position corpus. -/
def corpus250 : List TestPosition := List.replicate 250 tp0

/-- Fixture: an 11-position corpus. -/
def corpus11 : List TestPosition := List.replicate 11 tp0

/-- Scaling factor K (tune.py 35), idealized as the real number the decimal
literal denotes. -/
noncomputable def K : Real := 1.342224

/-- Win probability (tune.py 240, named per spec section 4.2):
1 / (1 + 10 ^ (-score * k / 400)). -/
noncomputable def win_probability (k : Real) (score : Int) : Real :=
  1 / (1 + (10 : Real) ^ (-(score : Real) * k / 400))

/-- calc_avg_error (tune.py 237-244): accumulate the squared differences
between each label and its win probability in a left fold (the source loop),
then divide by the corpus size.  Python float division by zero raises
ZeroDivisionError, so the empty corpus is modelled as none. -/
noncomputable def calc_avg_error (k : Real) (positions : List TestPosition) : Option Real :=
  let errors := positions.foldl
    (fun errors pos =>
      errors + (pos.result - win_probability k pos.score) * (pos.result - win_probability k pos.score))
    0
  if positions.length = 0 then none else some (errors / (positions.length : Real))

/-- Error metric as the specification words it (section 4.2): the arithmetic
mean over the corpus of the squared differences label minus win probability. -/
noncomputable def avg_error (k : Real) (positions : List TestPosition) : Real :=
  (positions.map (fun pos => (pos.result - win_probability k pos.score) ^ 2)).sum
    / (positions.length : Real)

/-- Fixture: a position with label 1.0. -/
def tp_a : TestPosition := { fen := "a", result := 1, score := 0 }

/-- Fixture: a position with label 0.0. -/
def tp_b : TestPosition := { fen := "b", result := 0, score := 0 }

/-- Fixture: a 2-position corpus. -/
def corpus2 : List TestPosition := [tp_a, tp_b]

/-- Engine (tune.py 76-97): one external worker process.  After the
uci/uciok handshake and the setoption/isready/readyok configuration, the
configured evaluator is deterministic, so a session is abstracted as the
function giving, for each sent fen, the integer of the scores reply. -/
abbrev Engine := String → Int

/-- Exception behavior of the try block of run_engine for one worker task:
it either completes normally, raises subprocess.TimeoutExpired, or raises
some other exception while scoring. -/
inductive EngineEvent where
  | ok
  | timeoutExpired
  | scoringException

/-- State recorded in the concurrent.futures Future of one worker task:
either the task returned (carrying the corpus slice as left by its in-place
score writes) or it raised and the Future stores the exception. -/
inductive FutureState where
  | returned (positions : List TestPosition)
  | raised

/-- run_engine (tune.py 100-139): scores its positions chunk by chunk
(chunks of 100), writing each reply integer into the score field, in chunk
order.  On subprocess.TimeoutExpired it calls engine.stop() and re-raises
(modelled as raised, before any score write); any other exception is caught
and logged and the batch keeps its old scores (tune.py 136-137). -/
def run_engine (engine : Engine) (event : EngineEvent) (test_positions : List TestPosition) :
    FutureState :=
  match event with
  | .ok =>
      .returned (((make_chunks test_positions 100).map
        (fun chunk => chunk.map (fun pos => { pos with score := engine pos.fen }))).flatten)
  | .timeoutExpired => .raised
  | .scoringException => .returned test_positions

/-- Outcome of the call actually submitted at tune.py 223:
executor.submit(run_engine, engine, worker_id, config.tuning_options, batch)
passes four positional arguments to the three-parameter run_engine
(tune.py 100), so the worker call raises TypeError before the body of
run_engine runs, and the Future stores that exception. -/
def submitted_task (_engine : Engine) (_worker_id : Nat) (_batch : List TestPosition) :
    FutureState :=
  .raised

/-- Future.cancelled() (checked at tune.py 227): a future that was submitted
and allowed to run is never in the cancelled state, because Future.cancel is
never called anywhere in the source. -/
def futureCancelled (_f : FutureState) : Bool := false

/-- Corpus slice as left in memory by one worker task: the returned positions
for a task that completed, the untouched batch for a task that raised. -/
def batch_after (pr : List TestPosition × FutureState) : List TestPosition :=
  match pr.2 with
  | .returned positions => positions
  | .raised => pr.1

/-- Abnormal terminations of run_pass: IndexError from engines[worker_id - 1]
in the submitting loop (tune.py 222), the sys.exit for a cancelled worker
(tune.py 228), and ZeroDivisionError from calc_avg_error on an empty corpus. -/
inductive PassError where
  | indexError
  | workerCancelled
  | zeroDivision

/-- Submitting loop of run_pass (tune.py 220-224): batch number j (0-based)
is handed to engines[j] under worker_id j + 1; a missing engine index is the
IndexError case (none). -/
def dispatch (task : Engine → Nat → List TestPosition → FutureState) (engines : List Engine) :
    List (List TestPosition) → Nat → Option (List (List TestPosition × FutureState))
  | [], _ => some []
  | batch :: rest, worker_ix =>
      match engines[worker_ix]? with
      | none => none
      | some engine =>
          match dispatch task engines rest (worker_ix + 1) with
          | none => none
          | some futures => some ((batch, task engine (worker_ix + 1) batch) :: futures)

/-- run_pass (tune.py 214-234), parametrized by the task the executor runs:
partition the corpus with make_batches, submit every batch, wait for all
futures (the barrier), sys.exit if any future reports cancelled, then return
the corpus as mutated by the workers together with calc_avg_error over it. -/
noncomputable def run_pass_with (k : Real) (task : Engine → Nat → List TestPosition → FutureState)
    (engines : List Engine) (concurrent_workers : Nat) (test_positions : List TestPosition) :
    Except PassError (List TestPosition × Real) :=
  match dispatch task engines (make_batches test_positions concurrent_workers) 0 with
  | none => Except.error PassError.indexError
  | some futures =>
      if futures.any (fun f => futureCancelled f.2) then Except.error PassError.workerCancelled
      else
        match calc_avg_error k ((futures.map batch_after).flatten) with
        | none => Except.error PassError.zeroDivision
        | some e => Except.ok ((futures.map batch_after).flatten, e)

/-- run_pass exactly as the source dispatches it: every worker task is the
four-argument submit of the three-parameter run_engine, i.e. a TypeError
recorded in the Future. -/
noncomputable def run_pass (k : Real) (engines : List Engine) (concurrent_workers : Nat)
    (test_positions : List TestPosition) : Except PassError (List TestPosition × Real) :=
  run_pass_with k submitted_task engines concurrent_workers test_positions

/-- run_pass with the dispatch the specification describes (section 4.2):
the stray worker_id argument dropped, so that run_engine actually runs on
every batch; events gives the exception behavior of each worker task. -/
noncomputable def run_pass_fixed (k : Real) (engines : List Engine) (events : Nat → EngineEvent)
    (concurrent_workers : Nat) (test_positions : List TestPosition) :
    Except PassError (List TestPosition × Real) :=
  run_pass_with k (fun engine worker_id batch => run_engine engine (events worker_id) batch)
    engines concurrent_workers test_positions

/-- Fixture: an engine whose scores reply is 500 for every fen. -/
def engine500 : Engine := fun _ => 500

/-- TuningOption as constructed from configuration (tune.py 204-209): only
name, value and the array-part tagging vary; every counter starts at its
dataclass default: steps 16, direction 1, all counters 0. -/
def initOption (name : String) (value : Int) (is_part : Bool) (orig_name : String) :
    TuningOption :=
  { name := name, value := value, is_part := is_part, orig_name := orig_name }

/-- Treatment of one tuning option during one pass of the search loop: the
body of the inner for loop of main (tune.py 299-347).  The comparisons
new_err < best_err of the two trials are abstracted by the oracles
first_improves and second_improves.  Returns the updated option together
with the number of run_pass trials executed (0 when skipped).  Python
steps >>= 2 is an arithmetic right shift, i.e. floor division by 4,
embedded as Int.fdiv. -/
def tuneOptionPass (option : TuningOption) (first_improves second_improves : Bool) :
    TuningOption × Nat :=
  let option := { option with iterations := option.iterations + 1 }
  if option.remaining_skips > 0 then
    ({ option with remaining_skips := option.remaining_skips - 1 }, 0)
  else
    let prev_value := option.value
    let option := { option with value := prev_value + option.steps * option.direction }
    if first_improves then
      ({ option with improvements := option.improvements + 1, skip_count := 0 }, 1)
    else
      let option := { option with value := prev_value + option.steps * (-option.direction) }
      if second_improves then
        ({ option with direction := -option.direction, improvements := option.improvements + 1, skip_count := 0 }, 2)
      else
        let option := { option with value := prev_value }
        if option.steps > 1 then
          let steps := option.steps.fdiv 4
          let steps := if option.iterations > 1 ∧ option.improvements = 0 then 1 else steps
          ({ option with steps := steps }, 2)
        else
          let skip_count := option.skip_count + 1
          ({ option with skip_count := skip_count, remaining_skips := option.remaining_skips + 8 * skip_count }, 2)

/-- Postponed-options reset (tune.py 353-357), applied to every option when
a full pass brought no improvement: force steps to 1 and clear any pending
remaining_skips. -/
def resetPostponed (option : TuningOption) : TuningOption :=
  let option := { option with steps := 1 }
  if option.remaining_skips > 0 then { option with remaining_skips := 0 } else option

/-- States a single tuning option can reach across the life of the search:
its configured initial state, one pass of the inner loop (with any trial
outcomes), or the postponed-options reset. -/
inductive Reachable : TuningOption → Prop where
  | init (name : String) (value : Int) (is_part : Bool) (orig_name : String) :
      Reachable (initOption name value is_part orig_name)
  | pass (option : TuningOption) (first_improves second_improves : Bool) :
      Reachable option → Reachable (tuneOptionPass option first_improves second_improves).1
  | postponed (option : TuningOption) :
      Reachable option → Reachable (resetPostponed option)

/-- Invariant carried by every reachable option state: steps stays in the
division-by-4 chain from 16, and the two skip counters stay non-negative. -/
def OptionInv (o : TuningOption) : Prop :=
  (o.steps = 16 ∨ o.steps = 4 ∨ o.steps = 1) ∧ 0 ≤ o.remaining_skips ∧ 0 ≤ o.skip_count

lemma chunksAux_flatten (n : Nat) (hn : 0 < n) :
    ∀ (fuel : Nat) (ps : List TestPosition), ps.length ≤ fuel →
      (chunksAux fuel ps n).flatten = ps := by
  intro fuel
  induction fuel with
  | zero =>
      intro ps h
      have : ps = [] := List.length_eq_zero.mp (Nat.le_zero.mp h)
      simp [this, chunksAux]
  | succ f ih =>
      intro ps h
      cases ps with
      | nil => simp [chunksAux]
      | cons p rest =>
          have hlen : ((p :: rest).drop n).length ≤ f := by
            simp only [List.length_drop, List.length_cons]
            simp only [List.length_cons] at h
            omega
          simp only [chunksAux, List.flatten_cons, ih _ hlen, List.take_append_drop]

lemma make_chunks_flatten (positions : List TestPosition) (n : Nat) (hn : 0 < n) :
    (make_chunks positions n).flatten = positions := by
  have : n ≠ 0 := Nat.pos_iff_ne_zero.mp hn
  simp only [make_chunks, if_neg this]
  exact chunksAux_flatten n hn positions.length positions le_rfl

lemma make_batches_flatten (positions : List TestPosition) (w : Nat) :
    (make_batches positions w).flatten = positions := by
  simp only [make_batches]
  exact make_chunks_flatten positions _ (by omega)

/-- C3, counterexample: for a 250-position corpus and worker_count 4 the
source does not produce 4 batches of sizes 63,63,63,61.  Its floor-based
batch size max(1, 250 // 4) = 62 yields 5 batches of sizes 62,62,62,62,2. -/
theorem make_batches_c3_cex :
    (make_batches corpus250 4).length ≠ 4 ∧
    (make_batches corpus250 4).map List.length = [62, 62, 62, 62, 2] := by
  constructor
  · decide
  · rfl

/-- C3, as amended: make_batches splits the corpus into contiguous chunks of
size max(1, floor(n / w)) (the last chunk holds the remainder, and the number
of chunks can exceed w); concatenating the batches in order reconstructs the
corpus with each position exactly once; for n = 250, w = 4 the batch sizes
are 62,62,62,62,2 (five batches, not four). -/
theorem make_batches_c3_amended (positions : List TestPosition) (w : Nat) (_hw : 1 ≤ w) :
    (make_batches positions w).flatten = positions ∧
    (make_batches corpus250 4).map List.length = [62, 62, 62, 62, 2] ∧
    (make_batches corpus250 4).length = 5 := by
  refine ⟨make_batches_flatten positions w, by rfl, by rfl⟩

/-- C3, witness: the amended statement evaluated on the 11-position corpus
with 4 workers. -/
theorem make_batches_c3_witness :
    (make_batches corpus11 4).flatten = corpus11 ∧
    (make_batches corpus250 4).map List.length = [62, 62, 62, 62, 2] := by
  have h := make_batches_c3_amended corpus11 4 (by decide)
  exact ⟨h.1, h.2.1⟩

lemma errors_foldl (k : Real) :
    ∀ (positions : List TestPosition) (a : Real),
      positions.foldl
        (fun errors pos =>
          errors + (pos.result - win_probability k pos.score) * (pos.result - win_probability k pos.score))
        a
      = a + (positions.map (fun pos => (pos.result - win_probability k pos.score) ^ 2)).sum := by
  intro positions
  induction positions with
  | nil => intro a; simp
  | cons p rest ih =>
      intro a
      simp only [List.foldl_cons, List.map_cons, List.sum_cons, ih, pow_two]
      ring

lemma calc_avg_error_eq (k : Real) (positions : List TestPosition) (h : positions ≠ []) :
    calc_avg_error k positions = some (avg_error k positions) := by
  have hlen : positions.length ≠ 0 := fun hl => h (List.length_eq_zero.mp hl)
  simp only [calc_avg_error, avg_error, if_neg hlen, errors_foldl, zero_add]

/-- C8: on a non-empty corpus, calc_avg_error returns the arithmetic mean of
the squared errors (label - win_probability)^2 with
win_probability = 1 / (1 + 10 ^ (-score * k / 400)); every win probability is
strictly between 0 and 1, and at score 0 it equals one half. -/
theorem calc_avg_error_c8 (k : Real) (positions : List TestPosition) (h : positions ≠ []) :
    calc_avg_error k positions =
      some ((positions.map (fun pos => (pos.result - win_probability k pos.score) ^ 2)).sum
        / (positions.length : Real)) ∧
    (∀ score : Int, 0 < win_probability k score ∧ win_probability k score < 1) ∧
    win_probability k 0 = 1 / 2 := by
  refine ⟨calc_avg_error_eq k positions h, fun score => ?_, ?_⟩
  · have hpow : (0 : Real) < (10 : Real) ^ (-(score : Real) * k / 400) :=
      Real.rpow_pos_of_pos (by norm_num) _
    constructor
    · unfold win_probability
      positivity
    · unfold win_probability
      rw [div_lt_one (by linarith)]
      linarith
  · unfold win_probability
    norm_num

/-- C8, witness: the statement evaluated at K on the 2-position corpus and at
scores 5 and 0. -/
theorem calc_avg_error_c8_witness :
    calc_avg_error K corpus2 =
      some ((corpus2.map (fun pos => (pos.result - win_probability K pos.score) ^ 2)).sum
        / (corpus2.length : Real)) ∧
    0 < win_probability K 5 ∧ win_probability K 5 < 1 ∧ win_probability K 0 = 1 / 2 := by
  have h := calc_avg_error_c8 K corpus2 (by simp [corpus2])
  exact ⟨h.1, (h.2.1 5).1, (h.2.1 5).2, h.2.2⟩

/-- C9: calc_avg_error is partial: on the empty corpus the division by
len(positions) raises (modelled as none), and it returns a value exactly when
the corpus is non-empty. -/
theorem calc_avg_error_c9 (k : Real) :
    calc_avg_error k [] = none ∧
    ∀ positions : List TestPosition,
      ((calc_avg_error k positions).isSome = true ↔ positions ≠ []) := by
  constructor
  · simp [calc_avg_error]
  · intro positions
    by_cases h : positions = []
    · subst h; simp [calc_avg_error]
    · simp [calc_avg_error_eq k positions h, h]

/-- C9, witness: evaluation at K on the empty corpus and on the 2-position
corpus. -/
theorem calc_avg_error_c9_witness :
    calc_avg_error K [] = none ∧ (calc_avg_error K corpus2).isSome = true := by
  have h := calc_avg_error_c9 K
  exact ⟨h.1, (h.2 corpus2).mpr (by simp [corpus2])⟩

lemma dispatch_raised (task : Engine → Nat → List TestPosition → FutureState)
    (htask : ∀ e i b, task e i b = FutureState.raised) (engines : List Engine) :
    ∀ (batches : List (List TestPosition)) (j : Nat), j + batches.length ≤ engines.length →
      dispatch task engines batches j = some (batches.map (fun b => (b, FutureState.raised))) := by
  intro batches
  induction batches with
  | nil => intro j h; simp [dispatch]
  | cons b rest ih =>
      intro j h
      simp only [List.length_cons] at h
      have hj : j < engines.length := by omega
      simp only [dispatch, List.getElem?_eq_getElem hj, ih (j + 1) (by omega), htask,
        List.map_cons]

lemma dispatch_ok (ev : Engine) (engines : List Engine) (hE : ∀ e ∈ engines, e = ev) :
    ∀ (batches : List (List TestPosition)) (j : Nat), j + batches.length ≤ engines.length →
      dispatch (fun engine _ batch => run_engine engine EngineEvent.ok batch) engines batches j
        = some (batches.map (fun b => (b, run_engine ev EngineEvent.ok b))) := by
  intro batches
  induction batches with
  | nil => intro j h; simp [dispatch]
  | cons b rest ih =>
      intro j h
      simp only [List.length_cons] at h
      have hj : j < engines.length := by omega
      have hev : engines[j] = ev := hE _ (List.getElem_mem hj)
      simp only [dispatch, List.getElem?_eq_getElem hj, ih (j + 1) (by omega), hev,
        List.map_cons]

lemma flatten_map (f : TestPosition → TestPosition) :
    ∀ L : List (List TestPosition),
      (L.map (fun chunk => chunk.map f)).flatten = L.flatten.map f := by
  intro L
  induction L with
  | nil => simp
  | cons c rest ih => simp only [List.map_cons, List.flatten_cons, List.map_append, ih]

lemma run_engine_ok (ev : Engine) (ps : List TestPosition) :
    run_engine ev EngineEvent.ok ps =
      FutureState.returned (ps.map (fun pos => { pos with score := ev pos.fen })) := by
  simp only [run_engine]
  rw [flatten_map, make_chunks_flatten ps 100 (by norm_num)]

lemma run_pass_with_raised (k : Real) (task : Engine → Nat → List TestPosition → FutureState)
    (htask : ∀ e i b, task e i b = FutureState.raised) (engines : List Engine) (w : Nat)
    (ps : List TestPosition) (h : (make_batches ps w).length ≤ engines.length) :
    run_pass_with k task engines w ps =
      match calc_avg_error k ps with
      | none => Except.error PassError.zeroDivision
      | some e => Except.ok (ps, e) := by
  have hd := dispatch_raised task htask engines (make_batches ps w) 0 (by omega)
  have hflat :
      ((((make_batches ps w).map (fun b => (b, FutureState.raised))).map batch_after)).flatten
        = ps := by
    simp only [List.map_map]
    have hid : (batch_after ∘ fun b => (b, FutureState.raised)) = id := by
      funext b; rfl
    rw [hid, List.map_id, make_batches_flatten]
  simp only [run_pass_with, hd, futureCancelled, List.any_eq_true, Bool.false_eq_true,
    and_false, exists_false, if_false, hflat]

lemma run_pass_fixed_ok (k : Real) (ev : Engine) (engines : List Engine)
    (hE : ∀ e ∈ engines, e = ev) (w : Nat) (ps : List TestPosition)
    (h : (make_batches ps w).length ≤ engines.length) :
    run_pass_fixed k engines (fun _ => EngineEvent.ok) w ps =
      match calc_avg_error k (ps.map (fun pos => { pos with score := ev pos.fen })) with
      | none => Except.error PassError.zeroDivision
      | some e => Except.ok (ps.map (fun pos => { pos with score := ev pos.fen }), e) := by
  have hd := dispatch_ok ev engines hE (make_batches ps w) 0 (by omega)
  have hflat :
      ((((make_batches ps w).map (fun b => (b, run_engine ev EngineEvent.ok b))).map
        batch_after)).flatten = ps.map (fun pos => { pos with score := ev pos.fen }) := by
    simp only [List.map_map]
    have hup : (batch_after ∘ fun b => (b, run_engine ev EngineEvent.ok b))
        = fun b => b.map (fun pos => { pos with score := ev pos.fen }) := by
      funext b
      simp [Function.comp, run_engine_ok, batch_after]
    rw [hup, flatten_map, make_batches_flatten]
  show run_pass_with k (fun engine _ batch => run_engine engine EngineEvent.ok batch)
      engines w ps = _
  simp only [run_pass_with, hd, futureCancelled, List.any_eq_true, Bool.false_eq_true,
    and_false, exists_false, if_false, hflat]

/-- C1: the batch-scoring step of the source never writes any score.  The
submit at tune.py 223 passes four arguments (engine, worker_id,
tuning_options, batch) to the three-parameter run_engine, so every worker
task raises TypeError, the exception stays unread in its Future, and
run_pass still returns a normal aggregate over the UNTOUCHED corpus (first
and fourth conjuncts: the two scores stay 0, not 500).  The dispatch the
claim and the spec describe holds only for the repaired submit
(run_pass_fixed, second conjunct) and for run_engine itself (third
conjunct): there every position ends with the score the engine replies
for its fen, in corpus order. -/
theorem run_pass_scores_c1 :
    run_pass K [engine500, engine500] 1 corpus2 = Except.ok (corpus2, avg_error K corpus2) ∧
    run_pass_fixed K [engine500, engine500] (fun _ => EngineEvent.ok) 1 corpus2 =
      Except.ok (corpus2.map (fun pos => { pos with score := engine500 pos.fen }),
        avg_error K (corpus2.map (fun pos => { pos with score := engine500 pos.fen }))) ∧
    run_engine engine500 EngineEvent.ok corpus2 =
      FutureState.returned (corpus2.map (fun pos => { pos with score := engine500 pos.fen })) ∧
    corpus2.map TestPosition.score = [0, 0] ∧
    (corpus2.map (fun pos => { pos with score := engine500 pos.fen })).map TestPosition.score
      = [500, 500] := by
  have hlen : (make_batches corpus2 1).length ≤ ([engine500, engine500] : List Engine).length := by
    decide
  have hE : ∀ e ∈ ([engine500, engine500] : List Engine), e = engine500 := by
    intro e he
    simpa using he
  refine ⟨?_, ?_, run_engine_ok engine500 corpus2, by rfl, by rfl⟩
  · rw [run_pass, run_pass_with_raised K submitted_task (fun _ _ _ => rfl)
      [engine500, engine500] 1 corpus2 hlen,
      calc_avg_error_eq K corpus2 (by simp [corpus2])]
  · rw [run_pass_fixed_ok K engine500 [engine500, engine500] hE 1 corpus2 hlen,
      calc_avg_error_eq K _ (by simp [corpus2])]

/-- C2: a worker whose task raises subprocess.TimeoutExpired does NOT abort
the run.  run_engine stops the engine and re-raises (second conjunct:
the Future records a raised exception), but run_pass only checks
future.cancelled(), which is false for a future that ran (third conjunct),
and never calls future.result(); so the stored timeout is discarded and
run_pass returns the normal aggregate error over the untouched corpus
(first conjunct) instead of terminating the program. -/
theorem timeout_swallowed_c2 :
    run_pass_fixed K [engine500, engine500] (fun _ => EngineEvent.timeoutExpired) 1 corpus2 =
      Except.ok (corpus2, avg_error K corpus2) ∧
    run_engine engine500 EngineEvent.timeoutExpired corpus2 = FutureState.raised ∧
    futureCancelled FutureState.raised = false := by
  refine ⟨?_, rfl, rfl⟩
  have hlen : (make_batches corpus2 1).length ≤ ([engine500, engine500] : List Engine).length := by
    decide
  have h := run_pass_with_raised K
    (fun engine _ batch => run_engine engine EngineEvent.timeoutExpired batch)
    (fun _ _ _ => rfl) [engine500, engine500] 1 corpus2 hlen
  show run_pass_with K (fun engine _ batch => run_engine engine EngineEvent.timeoutExpired batch)
      [engine500, engine500] 1 corpus2 = _
  rw [h, calc_avg_error_eq K corpus2 (by simp [corpus2])]

/-- C10: with an 11-position corpus and worker_count 4, make_batches yields
6 batches (floor batch size 2), which exceeds the 4 + 1 engine sessions main
creates, so the per-batch indexing engines[worker_id - 1] in run_pass goes
out of bounds (IndexError). -/
theorem batches_overflow_c10 :
    (make_batches corpus11 4).length = 6 ∧
    4 + 1 < (make_batches corpus11 4).length ∧
    run_pass K (List.replicate (4 + 1) engine500) 4 corpus11 =
      Except.error PassError.indexError := by
  refine ⟨by rfl, by decide, by rfl⟩

lemma optionInv_pass (o : TuningOption) (f s : Bool) (h : OptionInv o) :
    OptionInv (tuneOptionPass o f s).1 := by
  obtain ⟨hs, hr, hc⟩ := h
  simp only [tuneOptionPass, OptionInv]
  split_ifs with h1 h2 h3 h4 h5
  · have h1x : o.remaining_skips > 0 := h1
    exact ⟨hs, show 0 ≤ o.remaining_skips - 1 by omega, hc⟩
  · exact ⟨hs, hr, le_refl 0⟩
  · exact ⟨hs, hr, le_refl 0⟩
  · exact ⟨Or.inr (Or.inr rfl), hr, hc⟩
  · have h4x : o.steps > 1 := h4
    rcases hs with hs | hs | hs
    · exact ⟨Or.inr (Or.inl (show o.steps.fdiv 4 = 4 by rw [hs]; decide)), hr, hc⟩
    · exact ⟨Or.inr (Or.inr (show o.steps.fdiv 4 = 1 by rw [hs]; decide)), hr, hc⟩
    · exfalso; omega
  · exact ⟨hs, show 0 ≤ o.remaining_skips + 8 * (o.skip_count + 1) by omega,
      show 0 ≤ o.skip_count + 1 by omega⟩

lemma optionInv_postponed (o : TuningOption) (h : OptionInv o) :
    OptionInv (resetPostponed o) := by
  obtain ⟨hs, hr, hc⟩ := h
  simp only [resetPostponed, OptionInv]
  split_ifs with h1
  · exact ⟨Or.inr (Or.inr rfl), le_refl 0, hc⟩
  · exact ⟨Or.inr (Or.inr rfl), hr, hc⟩

lemma reachable_inv (o : TuningOption) (h : Reachable o) : OptionInv o := by
  induction h with
  | init name value is_part orig_name =>
      exact ⟨Or.inl rfl, le_refl 0, le_refl 0⟩
  | pass option f s _ ih => exact optionInv_pass option f s ih
  | postponed option _ ih => exact optionInv_postponed option ih

/-- C4, counterexample: a parameter with remaining_skip_count = 1 is skipped,
yet its iteration_count is still incremented in that same pass (tune.py 301
runs before the skip check at 303-306) — refuting that no other field of a
skipped parameter changes and that iteration_count is incremented only in
the non-skipped case. -/
theorem skip_pass_c4_cex :
    ({ name := "a", value := 0, remaining_skips := 1 : TuningOption }).remaining_skips > 0 ∧
    ({ name := "a", value := 0, remaining_skips := 1 : TuningOption }).iterations = 0 ∧
    (tuneOptionPass { name := "a", value := 0, remaining_skips := 1 } false false).1.iterations
      = 1 := by
  refine ⟨by decide, by decide, by decide⟩

/-- C4, as amended: iteration_count is incremented by exactly 1 for every
parameter in every pass, before the skip check; when remaining_skip_count > 0
the only further change is that it is decremented by exactly 1 and no trial
is run (trial count 0); only otherwise is a trial attempted (at least one
run_pass call). -/
theorem skip_pass_c4_amended (option : TuningOption) (f s : Bool) :
    (tuneOptionPass option f s).1.iterations = option.iterations + 1 ∧
    (option.remaining_skips > 0 →
      tuneOptionPass option f s =
        ({ option with iterations := option.iterations + 1, remaining_skips := option.remaining_skips - 1 }, 0)) ∧
    (¬ option.remaining_skips > 0 → 1 ≤ (tuneOptionPass option f s).2) := by
  refine ⟨?_, ?_, ?_⟩
  · simp only [tuneOptionPass]
    split_ifs <;> rfl
  · intro h
    simp only [tuneOptionPass]
    rw [if_pos (show ({ option with iterations := option.iterations + 1 } : TuningOption).remaining_skips > 0 from h)]
  · intro h
    simp only [tuneOptionPass]
    split_ifs with h1 h2 h3 h4 <;> first | exact absurd h1 h | omega

/-- C4, witness: the amended statement evaluated on a parameter with two
pending skips. -/
theorem skip_pass_c4_witness :
    (tuneOptionPass { name := "a", value := 0, remaining_skips := 2 } false false).1.iterations
      = 1 ∧
    tuneOptionPass { name := "a", value := 0, remaining_skips := 2 } false false =
      ({ name := "a", value := 0, iterations := 1, remaining_skips := 1 }, 0) := by
  have h := skip_pass_c4_amended { name := "a", value := 0, remaining_skips := 2 } false false
  refine ⟨by rw [h.1]; decide, ?_⟩
  exact (h.2.1 (by decide)).trans (by decide)

/-- C5: in every reachable state of a tuning option, steps lies in {16, 4, 1},
the chain obtained from the initial 16 by repeated floor division by 4, and
never falls below 1; and a freshly initialized parameter that never improves
in either direction visits exactly steps 16, 4, 1 (with no pending skips
while doing so) and only on the following pass enters the skip phase. -/
theorem steps_c5 (option : TuningOption) (h : Reachable option) :
    (option.steps = 16 ∨ option.steps = 4 ∨ option.steps = 1) ∧
    1 ≤ option.steps ∧
    (∀ o : TuningOption, o.steps = 16 → o.remaining_skips = 0 → o.skip_count = 0 →
      o.iterations = 0 → o.improvements = 0 →
      (tuneOptionPass o false false).1.steps = 4 ∧
      (tuneOptionPass o false false).1.remaining_skips = 0 ∧
      (tuneOptionPass (tuneOptionPass o false false).1 false false).1.steps = 1 ∧
      (tuneOptionPass (tuneOptionPass o false false).1 false false).1.remaining_skips = 0 ∧
      (tuneOptionPass (tuneOptionPass (tuneOptionPass o false false).1 false false).1
        false false).1.steps = 1 ∧
      0 < (tuneOptionPass (tuneOptionPass (tuneOptionPass o false false).1 false false).1
        false false).1.remaining_skips) := by
  have inv := reachable_inv option h
  refine ⟨inv.1, ?_, ?_⟩
  · rcases inv.1 with h1 | h1 | h1 <;> omega
  · intro o h16 hr0 hc0 hi0 hm0
    have f16 : (16 : Int).fdiv 4 = 4 := by decide
    have e1 : (tuneOptionPass o false false).1 = { o with iterations := 1, steps := 4 } := by
      simp only [tuneOptionPass, h16, hr0, hi0, hm0, f16]
      norm_num
    have e2 : (tuneOptionPass ({ o with iterations := 1, steps := 4 } : TuningOption)
        false false).1 = { o with iterations := 2, steps := 1 } := by
      simp only [tuneOptionPass, hr0, hm0]
      norm_num
    have e3 : (tuneOptionPass ({ o with iterations := 2, steps := 1 } : TuningOption)
        false false).1
        = { o with iterations := 3, steps := 1, remaining_skips := 8, skip_count := 1 } := by
      simp only [tuneOptionPass, hr0, hc0]
      norm_num
    rw [e1, e2, e3]
    exact ⟨rfl, hr0, rfl, hr0, rfl, by norm_num⟩

/-- C5, witness: the invariant at the freshly configured option and its
never-improving trace. -/
theorem steps_c5_witness :
    ((initOption "a" 0 false "").steps = 16 ∨ (initOption "a" 0 false "").steps = 4 ∨
      (initOption "a" 0 false "").steps = 1) ∧
    1 ≤ (initOption "a" 0 false "").steps ∧
    (tuneOptionPass (initOption "a" 0 false "") false false).1.steps = 4 ∧
    (tuneOptionPass (tuneOptionPass (initOption "a" 0 false "") false false).1
      false false).1.steps = 1 ∧
    0 < (tuneOptionPass (tuneOptionPass (tuneOptionPass (initOption "a" 0 false "")
      false false).1 false false).1 false false).1.remaining_skips := by
  have h := steps_c5 (initOption "a" 0 false "") (Reachable.init "a" 0 false "")
  have ht := h.2.2 (initOption "a" 0 false "") rfl rfl rfl rfl rfl
  exact ⟨h.1, h.2.1, ht.1, ht.2.2.1, ht.2.2.2.2.2⟩

/-- C6: when a trial in either direction improves best_err and is committed
(tune.py 312-318 and 323-330), the option ends the step with
remaining_skip_count 0 (a trial only runs when it already was 0, and the
committing branch leaves it unchanged) and with skip_streak (skip_count)
reset to 0. -/
theorem commit_reset_c6 (option : TuningOption) (f s : Bool) (h : Reachable option)
    (ht : ¬ option.remaining_skips > 0) (hc : f = true ∨ s = true) :
    (tuneOptionPass option f s).1.remaining_skips = 0 ∧
    (tuneOptionPass option f s).1.skip_count = 0 := by
  have hr0 : option.remaining_skips = 0 := by
    have := (reachable_inv option h).2.1
    omega
  rcases hc with rfl | rfl
  · simp [tuneOptionPass, hr0]
  · cases f <;> simp [tuneOptionPass, hr0]

/-- C6, witness: a committing first trial on a freshly configured option. -/
theorem commit_reset_c6_witness :
    (tuneOptionPass (initOption "a" 0 false "") true false).1.remaining_skips = 0 ∧
    (tuneOptionPass (initOption "a" 0 false "") true false).1.skip_count = 0 :=
  commit_reset_c6 (initOption "a" 0 false "") true false (Reachable.init "a" 0 false "")
    (by decide) (Or.inl rfl)

/-- C7: for every reachable option state, remaining_skip_count is
non-negative; the k-th consecutive failure at step 1 (skip_count k - 1
beforehand) adds exactly 8k to remaining_skip_count and sets skip_count
to k, so the added back-off grows with the failure streak; a pass increases
remaining_skip_count only when the option is not skipped, both trials fail,
and steps equals 1; the postponed reset never increases it; and a skipped
pass decrements it by exactly 1. -/
theorem skip_backoff_c7 (option : TuningOption) (h : Reachable option) :
    0 ≤ option.remaining_skips ∧
    (option.steps = 1 → ¬ option.remaining_skips > 0 →
      ((tuneOptionPass option false false).1.remaining_skips
          = option.remaining_skips + 8 * (option.skip_count + 1) ∧
        (tuneOptionPass option false false).1.skip_count = option.skip_count + 1)) ∧
    (∀ f s : Bool, option.remaining_skips < (tuneOptionPass option f s).1.remaining_skips →
      option.steps = 1 ∧ f = false ∧ s = false) ∧
    (resetPostponed option).remaining_skips ≤ option.remaining_skips ∧
    (option.remaining_skips > 0 →
      ∀ f s : Bool, (tuneOptionPass option f s).1.remaining_skips
        = option.remaining_skips - 1) := by
  have inv := reachable_inv option h
  obtain ⟨hs, hr, hc⟩ := inv
  refine ⟨hr, ?_, ?_, ?_, ?_⟩
  · intro h1 h2
    have hr0 : option.remaining_skips = 0 := by omega
    simp [tuneOptionPass, hr0, h1]
  · intro f s hlt
    simp only [tuneOptionPass] at hlt
    split_ifs at hlt with h1 h2 h3 h4 h5
    · exfalso
      have hx : option.remaining_skips < option.remaining_skips - 1 := hlt
      omega
    · exfalso
      have hx : option.remaining_skips < option.remaining_skips := hlt
      omega
    · exfalso
      have hx : option.remaining_skips < option.remaining_skips := hlt
      omega
    · exfalso
      have hx : option.remaining_skips < option.remaining_skips := hlt
      omega
    · exfalso
      have hx : option.remaining_skips < option.remaining_skips := hlt
      omega
    · have hstep : option.steps = 1 := by
        have h4x : ¬ option.steps > 1 := h4
        rcases hs with hx | hx | hx <;> omega
      have hf : f = false := by
        cases f
        · rfl
        · exact absurd rfl h2
      have hsx : s = false := by
        cases s
        · rfl
        · exact absurd rfl h3
      exact ⟨hstep, hf, hsx⟩
  · simp only [resetPostponed]
    split_ifs with h1
    · exact hr
    · exact le_refl _
  · intro hpos f s
    simp only [tuneOptionPass]
    rw [if_pos (show ({ option with iterations := option.iterations + 1 } : TuningOption).remaining_skips > 0 from hpos)]

/-- C7, witness: the back-off evaluated on a reachable option with steps 1
(the postponed reset of a fresh option): the first failure at step 1 adds
exactly 8. -/
theorem skip_backoff_c7_witness :
    0 ≤ (resetPostponed (initOption "a" 0 false "")).remaining_skips ∧
    (tuneOptionPass (resetPostponed (initOption "a" 0 false "")) false false).1.remaining_skips
      = (resetPostponed (initOption "a" 0 false "")).remaining_skips
        + 8 * ((resetPostponed (initOption "a" 0 false "")).skip_count + 1) ∧
    (tuneOptionPass (resetPostponed (initOption "a" 0 false "")) false false).1.skip_count
      = (resetPostponed (initOption "a" 0 false "")).skip_count + 1 := by
  have h := skip_backoff_c7 (resetPostponed (initOption "a" 0 false ""))
    (Reachable.postponed _ (Reachable.init "a" 0 false ""))
  have hb := h.2.1 (by decide) (by decide)
  exact ⟨h.1, hb.1, hb.2⟩
